import Mathlib

/-!
Verification of the core logic of a small PDF question-answering service:
a greedy word-based text chunker (`chunk_text`), a linear best-of-N answer
selection over chunks (`ask_question_with_chunking`), both from
src/pdf_qa_script.py, and the input validation of the `/process` HTTP
handler from src/app.py.

Strings are embedded as `List Char` where character counting matters
(document text, chunks); opaque payloads such as answers and error
messages stay `String`. Confidence scores are embedded as `ℚ`; the code
only ever compares them with `>`.
-/

/-- Python whitespace test used by `str.split()` with no argument
(ASCII whitespace characters). -/
def pyIsSpace (c : Char) : Bool :=
  c == ' ' || c == '\t' || c == '\n' || c == '\r' || c == '\x0b' || c == '\x0c'

/-- Helper for Python `str.split`: `acc` holds the current word, reversed. -/
def splitAux (p : Char → Bool) : List Char → List Char → List (List Char)
  | [], acc => if acc = [] then [] else [acc.reverse]
  | c :: cs, acc =>
    if p c then
      if acc = [] then splitAux p cs [] else acc.reverse :: splitAux p cs []
    else
      splitAux p cs (c :: acc)

/-- Python `str.split()` over a class of separator characters, dropping
empty pieces (the behaviour of `split` with no argument). -/
def pySplit (p : Char → Bool) (s : List Char) : List (List Char) :=
  splitAux p s []

/-- The `words = text.split()` step of `chunk_text`. -/
def splitWords (s : List Char) : List (List Char) :=
  pySplit pyIsSpace s

/-- Splitting a chunk back into words on the space character; chunks are
built by joining words with single spaces, so this recovers their words. -/
def splitSpaces (s : List Char) : List (List Char) :=
  pySplit (fun c => c == ' ') s

/-- Python `" ".join(words)`. -/
def joinWords : List (List Char) → List Char
  | [] => []
  | [w] => w
  | w :: ws => w ++ ' ' :: joinWords ws

/-- The loop of `PDFQuestionAnswering.chunk_text` (src/pdf_qa_script.py,
lines 83-94): `cur` is `current_chunk`, `len` is `current_length`; chunks
flushed by the `else` branch are emitted in order before the recursion,
and a final non-empty `cur` is flushed after the loop. -/
def chunkLoop (L : Nat) : List (List Char) → List (List Char) → Nat → List (List Char)
  | [], cur, _ => if cur = [] then [] else [joinWords cur]
  | w :: ws, cur, len =>
    if len + w.length + 1 ≤ L then
      chunkLoop L ws (cur ++ [w]) (len + w.length + 1)
    else
      (if cur = [] then [] else [joinWords cur]) ++ chunkLoop L ws [w] w.length

/-- `chunk_text(text, max_length)` (src/pdf_qa_script.py, lines 67-96). -/
def chunk_text (text : List Char) (max_length : Nat) : List (List Char) :=
  chunkLoop max_length (splitWords text) [] 0

/-- A word as produced by `str.split`: non-empty and containing no space. -/
def GoodWord (w : List Char) : Prop :=
  w ≠ [] ∧ ∀ c ∈ w, (c == ' ') = false

/-- Result of one `ask_question(question, chunk)` call as the selector loop
sees it: either a dict containing the key `"error"`, or a success dict with
the keys `answer`, `score`, `start`, `end` (`ask_question` fills defaults
itself, so on success all four keys are present). -/
inductive AskResult where
  | error (msg : String) : AskResult
  | answer (text : String) (score : ℚ) (start stop : Int) : AskResult
deriving DecidableEq

/-- The running `best_answer` dict of `ask_question_with_chunking`;
`start`, `stop` and `chunk_index` are `none` when the key is absent. -/
structure BestAnswer where
  answer : String
  score : ℚ
  start : Option Int
  stop : Option Int
  chunk_index : Option Nat
deriving DecidableEq

/-- Text of the sentinel answer. -/
def noAnswerStr : String := "No answer found"

/-- The initial `best_answer = {"answer": "No answer found", "score": 0}`
(line 210); no `start`, `end` or `chunk_index` keys. -/
def sentinel : BestAnswer :=
  { answer := noAnswerStr, score := 0, start := none, stop := none, chunk_index := none }

/-- One iteration body of the selector loop (lines 214-220): an error dict
never replaces the best answer; a success dict replaces it exactly when its
score strictly exceeds the best score, recording the chunk index. -/
def stepBest (best : BestAnswer) (r : AskResult) (i : Nat) : BestAnswer :=
  match r with
  | AskResult.error _ => best
  | AskResult.answer a s st en =>
    if best.score < s then { answer := a, score := s, start := some st, stop := some en, chunk_index := some i } else best

/-- The `for i, chunk in enumerate(chunks)` loop of
`ask_question_with_chunking`, also counting `ask_question` invocations;
`f i` is the collaborator's result for chunk `i`. -/
def selectLoop (f : Nat → AskResult) : List (List Char) → Nat → BestAnswer → Nat → BestAnswer × Nat
  | [], _, best, calls => (best, calls)
  | _ :: rest, i, best, calls => selectLoop f rest (i + 1) (stepBest best (f i) i) (calls + 1)

/-- Outcome of `ask_question_with_chunking`: an error dict or a best-answer
dict. -/
inductive QAOutcome where
  | error (msg : String) : QAOutcome
  | answer (best : BestAnswer) : QAOutcome
deriving DecidableEq

/-- Message of the missing-document error. -/
def noPdfMsg : String := "No PDF text available. Please load a PDF first."

/-- `ask_question_with_chunking` (src/pdf_qa_script.py, lines 196-222),
returning the outcome together with the number of scoring-collaborator
invocations. The code chunks `self.pdf_text` with the default
`max_length = 1000`. -/
def runChunking (pdf_text : List Char) (f : Nat → AskResult) : QAOutcome × Nat :=
  if pdf_text = [] then (QAOutcome.error noPdfMsg, 0)
  else
    let r := selectLoop f (chunk_text pdf_text 1000) 0 sentinel 0
    (QAOutcome.answer r.1, r.2)

/-- Number of chunks the selector iterates over (default max length 1000). -/
def numChunks (text : List Char) : Nat :=
  (chunk_text text 1000).length

/-- Score field of a per-chunk result; `none` on error dicts. -/
def scoreAt (r : AskResult) : Option ℚ :=
  match r with
  | AskResult.error _ => none
  | AskResult.answer _ s _ _ => some s

/-- Pure index-fold form of the selector loop, used for reasoning:
`foldIdx f i m best` processes chunk indices `i, i+1, ..., i+m-1`. -/
def foldIdx (f : Nat → AskResult) : Nat → Nat → BestAnswer → BestAnswer
  | _, 0, best => best
  | i, m + 1, best => foldIdx f (i + 1) m (stepBest best (f i) i)

/-- Python truthiness of an optional form field: `not x` holds for an
absent field and for the empty string. -/
def pyFalsy : Option String → Bool
  | none => true
  | some s => s.isEmpty

/-- Payload sent by `/process` to the remote API: the context is included
only when non-empty (src/app.py, lines 70-84). -/
inductive Payload where
  | questionOnly (question : String) : Payload
  | questionContext (question context : String) : Payload
deriving DecidableEq

/-- Payload construction of `/process`. -/
def mkPayload (prompt context : String) : Payload :=
  if context.isEmpty then Payload.questionOnly prompt else Payload.questionContext prompt context

/-- Response of the single `requests.post` call to the remote API, as
classified by `/process`: HTTP 200 with optional JSON fields, 404, 503,
another status code, or a raised exception. -/
inductive HfOutcome where
  | ok (answer : Option String) (score : Option ℚ) (start stop : Option Int) : HfOutcome
  | notFound : HfOutcome
  | loading : HfOutcome
  | otherStatus (code : Nat) (text : String) : HfOutcome
  | exn (msg : String) : HfOutcome
deriving DecidableEq

/-- Body of a `/process` response. -/
inductive ProcessResult where
  | badRequest (status message : String) : ProcessResult
  | success (status answer : String) (score : ℚ) (start stop : Int) : ProcessResult
  | apiError (message : String) : ProcessResult
  | failure (status err : String) : ProcessResult
deriving DecidableEq

/-- Full `/process` outcome: body, HTTP status code (Flask's implicit 200
for plain dict returns), and the number of remote API calls made. -/
structure ProcessOutput where
  body : ProcessResult
  httpStatus : Nat
  hfCalls : Nat
deriving DecidableEq

/-- A single apostrophe, as used by the f-string in the 404 message. -/
def quoteChar : String := String.singleton (Char.ofNat 39)

/-- The empty string. -/
def emptyStr : String := ""

/-- Message of the 400 rejection. -/
def missingMsg : String := "Model and prompt are required."

/-- Status strings of the response bodies. -/
def statusErrorStr : String := "error"

def statusSuccessStr : String := "success"

def statusFailureStr : String := "failure"

def loadingMsg : String := "Model is loading. Please wait a moment and try again."

def notFoundMsg (model : String) : String :=
  "Model " ++ quoteChar ++ model ++ quoteChar ++ " not found. Try changing to a different model."

def apiFailedMsg (code : Nat) (text : String) : String :=
  "API request failed: " ++ toString code ++ " - " ++ text

/-- The `/process` handler (src/app.py, lines 59-114). `hf_model`,
`hf_token`, `prompt` are the form fields, `file` the decoded content of the
optional upload, and `hf` the remote API's response to the payload sent. -/
def process (hf_model hf_token prompt file : Option String) (hf : Payload → HfOutcome) : ProcessOutput :=
  if pyFalsy hf_model || pyFalsy prompt then
    { body := ProcessResult.badRequest statusErrorStr missingMsg, httpStatus := 400, hfCalls := 0 }
  else
    let context := file.getD emptyStr
    let payload := mkPayload (prompt.getD emptyStr) context
    match hf payload with
    | HfOutcome.ok a s st en =>
      { body := ProcessResult.success statusSuccessStr (a.getD noAnswerStr) (s.getD 0) (st.getD 0) (en.getD 0),
        httpStatus := 200, hfCalls := 1 }
    | HfOutcome.notFound =>
      { body := ProcessResult.apiError (notFoundMsg (hf_model.getD emptyStr)), httpStatus := 200, hfCalls := 1 }
    | HfOutcome.loading =>
      { body := ProcessResult.apiError loadingMsg, httpStatus := 200, hfCalls := 1 }
    | HfOutcome.otherStatus code text =>
      { body := ProcessResult.apiError (apiFailedMsg code text), httpStatus := 200, hfCalls := 1 }
    | HfOutcome.exn m =>
      { body := ProcessResult.failure statusFailureStr m, httpStatus := 500, hfCalls := 1 }

/-- Concrete document whose two words both have length 1000, so that
chunking at the default 1000 yields exactly two chunks. -/
def bigText : List Char :=
  List.replicate 1000 'a' ++ ' ' :: List.replicate 1000 'b'

/-! ### Lemmas about splitting and joining -/

theorem splitAux_good (p : Char → Bool) :
    ∀ (s acc : List Char), (∀ c ∈ acc, p c = false) →
      ∀ w ∈ splitAux p s acc, w ≠ [] ∧ ∀ c ∈ w, p c = false := by
  intro s
  induction s with
  | nil =>
    intro acc hacc w hw
    by_cases h : acc = []
    · simp [splitAux, h] at hw
    · simp [splitAux, h] at hw
      subst hw
      refine ⟨by simpa using h, ?_⟩
      intro c hc
      exact hacc c (List.mem_reverse.mp hc)
  | cons c cs ih =>
    intro acc hacc w hw
    by_cases hc : p c = true
    · by_cases h : acc = []
      · simp [splitAux, hc, h] at hw
        exact ih [] (by simp) w hw
      · simp [splitAux, hc, h] at hw
        rcases hw with hw | hw
        · subst hw
          refine ⟨by simpa using h, ?_⟩
          intro d hd
          exact hacc d (List.mem_reverse.mp hd)
        · exact ih [] (by simp) w hw
    · simp only [splitAux, hc, if_false] at hw
      refine ih (c :: acc) ?_ w hw
      intro d hd
      rcases List.mem_cons.mp hd with hd | hd
      · subst hd; simpa using hc
      · exact hacc d hd

theorem splitAux_append_no_sep (p : Char → Bool) :
    ∀ (w rest acc : List Char), (∀ c ∈ w, p c = false) →
      splitAux p (w ++ rest) acc = splitAux p rest (w.reverse ++ acc) := by
  intro w
  induction w with
  | nil => intro rest acc _; simp
  | cons c w' ih =>
    intro rest acc hw
    have hc : p c = false := hw c (by simp)
    have hstep : splitAux p ((c :: w') ++ rest) acc = splitAux p (w' ++ rest) (c :: acc) := by
      simp [splitAux, hc]
    rw [hstep, ih rest (c :: acc) (fun d hd => hw d (List.mem_cons_of_mem c hd))]
    simp

theorem splitAux_sep (p : Char → Bool) (c : Char) (rest acc : List Char)
    (hc : p c = true) (hacc : acc ≠ []) :
    splitAux p (c :: rest) acc = acc.reverse :: splitAux p rest [] := by
  simp [splitAux, hc, hacc]

theorem splitSpaces_joinWords :
    ∀ (ws : List (List Char)), (∀ w ∈ ws, GoodWord w) → ws ≠ [] →
      splitSpaces (joinWords ws) = ws := by
  intro ws
  induction ws with
  | nil => intro _ h; exact absurd rfl h
  | cons w ws' ih =>
    intro hgood _
    have hw : GoodWord w := hgood w (by simp)
    match ws' with
    | [] =>
      show splitAux (fun c => c == ' ') (joinWords [w]) [] = [w]
      have hjw : joinWords [w] = w ++ ([] : List Char) := by simp [joinWords]
      rw [hjw, splitAux_append_no_sep _ w [] [] hw.2]
      simp [splitAux, hw.1]
    | x :: xs =>
      show splitAux (fun c => c == ' ') (joinWords (w :: x :: xs)) [] = w :: x :: xs
      have hj : joinWords (w :: x :: xs) = w ++ ' ' :: joinWords (x :: xs) := by
        simp [joinWords]
      have hrec := ih (fun u hu => hgood u (List.mem_cons_of_mem w hu)) (by simp)
      rw [hj, splitAux_append_no_sep _ w _ [] hw.2, List.append_nil,
        splitAux_sep _ _ _ _ (by simp) (by simpa using hw.1), List.reverse_reverse]
      show w :: splitSpaces (joinWords (x :: xs)) = w :: x :: xs
      rw [hrec]

theorem splitWords_words_good :
    ∀ (text : List Char), ∀ w ∈ splitWords text, GoodWord w := by
  intro text w hw
  have h := splitAux_good pyIsSpace text [] (by simp) w hw
  refine ⟨h.1, ?_⟩
  intro c hc
  have hps : pyIsSpace c = false := h.2 c hc
  cases hcs : (c == ' ') with
  | false => rfl
  | true =>
    exfalso
    simp only [pyIsSpace, hcs, Bool.true_or] at hps
    exact absurd hps (by simp)

theorem joinWords_append_one :
    ∀ (cur : List (List Char)) (w : List Char), cur ≠ [] →
      joinWords (cur ++ [w]) = joinWords cur ++ ' ' :: w := by
  intro cur
  induction cur with
  | nil => intro w h; exact absurd rfl h
  | cons x xs ih =>
    intro w _
    match xs with
    | [] => simp [joinWords]
    | y :: ys =>
      have hys := ih w (by simp)
      rw [show ((y :: ys) ++ [w] : List (List Char)) = y :: (ys ++ [w]) from rfl] at hys
      show x ++ ' ' :: joinWords (y :: (ys ++ [w])) = (x ++ ' ' :: joinWords (y :: ys)) ++ ' ' :: w
      rw [hys]
      simp

theorem joinWords_single (w : List Char) : joinWords [w] = w := by
  simp [joinWords]

/-- Goodness of any chunk flushed from a loop state satisfying the length
invariant of `chunk_text`. -/
theorem flush_good (L : Nat) (cur : List (List Char)) (len : Nat)
    (hcur : ∀ w ∈ cur, GoodWord w) (hne : cur ≠ [])
    (hinv : len = (joinWords cur).length + 1 ∧ len ≤ L ∨
      len = (joinWords cur).length ∧ (len ≤ L ∨ ∃ w, cur = [w])) :
    (joinWords cur).length ≤ L ∨
      ((splitSpaces (joinWords cur)).length = 1 ∧ L < (joinWords cur).length) := by
  rcases hinv with ⟨hlen, hle⟩ | ⟨hlen, hle | ⟨w, hw⟩⟩
  · left; omega
  · left; omega
  · subst hw
    by_cases h : (joinWords [w]).length ≤ L
    · left; exact h
    · right
      constructor
      · rw [splitSpaces_joinWords [w] (by simpa using hcur w (by simp)) (by simp)]
        simp
      · omega

/-- The words of a loop state are recovered exactly, in order, by splitting
every produced chunk on spaces: core of the no-loss/no-duplication claim. -/
theorem chunkLoop_words (L : Nat) :
    ∀ (ws cur : List (List Char)) (len : Nat),
      (∀ w ∈ ws, GoodWord w) → (∀ w ∈ cur, GoodWord w) →
      ((chunkLoop L ws cur len).map splitSpaces).flatten = cur ++ ws := by
  intro ws
  induction ws with
  | nil =>
    intro cur len _ hcur
    by_cases h : cur = []
    · simp [chunkLoop, h]
    · simp [chunkLoop, h, splitSpaces_joinWords cur hcur h]
  | cons w ws' ih =>
    intro cur len hws hcur
    have hgw : GoodWord w := hws w (by simp)
    have hws' : ∀ u ∈ ws', GoodWord u := fun u hu => hws u (List.mem_cons_of_mem w hu)
    by_cases hle : len + w.length + 1 ≤ L
    · have hstep : chunkLoop L (w :: ws') cur len
          = chunkLoop L ws' (cur ++ [w]) (len + w.length + 1) := by
        simp [chunkLoop, hle]
      have hcur' : ∀ u ∈ cur ++ [w], GoodWord u := by
        intro u hu
        rcases List.mem_append.mp hu with hu | hu
        · exact hcur u hu
        · simp at hu; subst hu; exact hgw
      rw [hstep, ih (cur ++ [w]) _ hws' hcur']
      simp
    · have hstep : chunkLoop L (w :: ws') cur len
          = (if cur = [] then [] else [joinWords cur]) ++ chunkLoop L ws' [w] w.length := by
        simp [chunkLoop, hle]
      have hcw : ∀ u ∈ [w], GoodWord u := by intro u hu; simp at hu; subst hu; exact hgw
      rw [hstep, List.map_append, List.flatten_append, ih [w] _ hws' hcw]
      by_cases h : cur = []
      · simp [h]
      · simp [h, splitSpaces_joinWords cur hcur h]

/-- Every chunk produced from a loop state satisfying the length invariant is
within the limit, or is a lone oversized word. -/
theorem chunkLoop_len (L : Nat) :
    ∀ (ws cur : List (List Char)) (len : Nat),
      (∀ w ∈ ws, GoodWord w) → (∀ w ∈ cur, GoodWord w) →
      (cur = [] ∧ len = 0 ∨
        cur ≠ [] ∧ (len = (joinWords cur).length + 1 ∧ len ≤ L ∨
          len = (joinWords cur).length ∧ (len ≤ L ∨ ∃ w, cur = [w]))) →
      ∀ c ∈ chunkLoop L ws cur len,
        c.length ≤ L ∨ ((splitSpaces c).length = 1 ∧ L < c.length) := by
  intro ws
  induction ws with
  | nil =>
    intro cur len _ hcur hinv c hc
    by_cases h : cur = []
    · simp [chunkLoop, h] at hc
    · simp [chunkLoop, h] at hc
      subst hc
      rcases hinv with ⟨habs, _⟩ | ⟨_, hinv⟩
      · exact absurd habs h
      · exact flush_good L cur len hcur h hinv
  | cons w ws' ih =>
    intro cur len hws hcur hinv c hc
    have hgw : GoodWord w := hws w (by simp)
    have hws' : ∀ u ∈ ws', GoodWord u := fun u hu => hws u (List.mem_cons_of_mem w hu)
    have hcw : ∀ u ∈ [w], GoodWord u := by intro u hu; simp at hu; subst hu; exact hgw
    by_cases hle : len + w.length + 1 ≤ L
    · have hstep : chunkLoop L (w :: ws') cur len
          = chunkLoop L ws' (cur ++ [w]) (len + w.length + 1) := by
        simp [chunkLoop, hle]
      rw [hstep] at hc
      have hcur' : ∀ u ∈ cur ++ [w], GoodWord u := by
        intro u hu
        rcases List.mem_append.mp hu with hu | hu
        · exact hcur u hu
        · simp at hu; subst hu; exact hgw
      refine ih (cur ++ [w]) _ hws' hcur' ?_ c hc
      right
      refine ⟨by simp, ?_⟩
      rcases hinv with ⟨hcnil, hlen0⟩ | ⟨hcne, ⟨hlen, hleL⟩ | ⟨hlen, _⟩⟩
      · subst hcnil
        left
        constructor
        · simp [joinWords_single]
          omega
        · exact hle
      · left
        rw [joinWords_append_one cur w hcne]
        constructor
        · simp
          omega
        · exact hle
      · right
        rw [joinWords_append_one cur w hcne]
        constructor
        · simp
          omega
        · left; exact hle
    · have hstep : chunkLoop L (w :: ws') cur len
          = (if cur = [] then [] else [joinWords cur]) ++ chunkLoop L ws' [w] w.length := by
        simp [chunkLoop, hle]
      rw [hstep] at hc
      rcases List.mem_append.mp hc with hc | hc
      · by_cases h : cur = []
        · simp [h] at hc
        · simp [h] at hc
          subst hc
          rcases hinv with ⟨habs, _⟩ | ⟨_, hinv⟩
          · exact absurd habs h
          · exact flush_good L cur len hcur h hinv
      · refine ih [w] w.length hws' hcw ?_ c hc
        right
        refine ⟨by simp, Or.inr ⟨by simp [joinWords_single], Or.inr ⟨w, rfl⟩⟩⟩

/-- While the first chunk is still being accumulated from the in-limit branch,
the head of the output is a chunk of length at most `L - 1`. -/
theorem chunkLoop_headB (L : Nat) :
    ∀ (ws cur : List (List Char)) (len : Nat), cur ≠ [] →
      len = (joinWords cur).length + 1 → len ≤ L →
      ∀ c, (chunkLoop L ws cur len).head? = some c → c.length + 1 ≤ L := by
  intro ws
  induction ws with
  | nil =>
    intro cur len h hlen hle c hc
    simp [chunkLoop, h] at hc
    subst hc
    omega
  | cons w ws' ih =>
    intro cur len h hlen hle c hc
    by_cases hcond : len + w.length + 1 ≤ L
    · have hstep : chunkLoop L (w :: ws') cur len
          = chunkLoop L ws' (cur ++ [w]) (len + w.length + 1) := by
        simp [chunkLoop, hcond]
      rw [hstep] at hc
      refine ih (cur ++ [w]) _ (by simp) ?_ hcond c hc
      rw [joinWords_append_one cur w h]
      simp
      omega
    · have hstep : chunkLoop L (w :: ws') cur len
          = joinWords cur :: chunkLoop L ws' [w] w.length := by
        simp [chunkLoop, hcond, h]
      rw [hstep] at hc
      simp at hc
      subst hc
      omega

/-- A first word at least as long as the limit forms the first chunk alone. -/
theorem chunkLoop_headOver (L : Nat) :
    ∀ (ws : List (List Char)) (w : List Char), L ≤ w.length →
      (∀ u ∈ ws, u ≠ []) →
      (chunkLoop L ws [w] w.length).head? = some w := by
  intro ws
  induction ws with
  | nil =>
    intro w _ _
    simp [chunkLoop, joinWords_single]
  | cons u ws' ih =>
    intro w hL hne
    have hu : u ≠ [] := hne u (by simp)
    have hul : 1 ≤ u.length := by
      cases u with
      | nil => exact absurd rfl hu
      | cons a as => simp
    have hcond : ¬ (w.length + u.length + 1 ≤ L) := by omega
    have hstep : chunkLoop L (u :: ws') [w] w.length
        = joinWords [w] :: chunkLoop L ws' [u] u.length := by
      simp [chunkLoop, hcond]
    rw [hstep]
    simp [joinWords_single]

/-! ### Lemmas about the best-answer selection loop -/

theorem selectLoop_eq_foldIdx (f : Nat → AskResult) :
    ∀ (cs : List (List Char)) (i : Nat) (best : BestAnswer) (calls : Nat),
      selectLoop f cs i best calls = (foldIdx f i cs.length best, calls + cs.length) := by
  intro cs
  induction cs with
  | nil => intro i best calls; simp [selectLoop, foldIdx]
  | cons c rest ih =>
    intro i best calls
    show selectLoop f rest (i + 1) (stepBest best (f i) i) (calls + 1)
        = (foldIdx f i (rest.length + 1) best, calls + (rest.length + 1))
    rw [ih (i + 1) (stepBest best (f i) i) (calls + 1)]
    refine congrArg₂ Prod.mk rfl ?_
    omega

theorem stepBest_score_mono (best : BestAnswer) (r : AskResult) (i : Nat) :
    best.score ≤ (stepBest best r i).score := by
  cases r with
  | error m => simp [stepBest]
  | answer a s st en =>
    by_cases h : best.score < s
    · simp [stepBest, h]
      exact le_of_lt h
    · simp [stepBest, h]

theorem foldIdx_score_mono (f : Nat → AskResult) :
    ∀ (m i : Nat) (best : BestAnswer), best.score ≤ (foldIdx f i m best).score := by
  intro m
  induction m with
  | zero => intro i best; simp [foldIdx]
  | succ m ih =>
    intro i best
    calc best.score ≤ (stepBest best (f i) i).score := stepBest_score_mono best (f i) i
      _ ≤ (foldIdx f (i + 1) m (stepBest best (f i) i)).score := ih (i + 1) _
      _ = (foldIdx f i (m + 1) best).score := rfl

/-- If no result in the processed range strictly beats the current best
score, the accumulator never changes. -/
theorem foldIdx_skip (f : Nat → AskResult) :
    ∀ (m i : Nat) (best : BestAnswer),
      (∀ j, i ≤ j → j < i + m → ∀ t, scoreAt (f j) = some t → t ≤ best.score) →
      foldIdx f i m best = best := by
  intro m
  induction m with
  | zero => intro i best _; simp [foldIdx]
  | succ m ih =>
    intro i best hbd
    have hstep : stepBest best (f i) i = best := by
      cases hr : f i with
      | error m' => simp [stepBest]
      | answer a s st en =>
        have hs : s ≤ best.score := hbd i le_rfl (by omega) s (by simp [scoreAt, hr])
        simp [stepBest, not_lt.mpr hs]
    show foldIdx f (i + 1) m (stepBest best (f i) i) = best
    rw [hstep]
    refine ih (i + 1) best ?_
    intro j hj hjm t ht
    exact hbd j (by omega) (by omega) t ht

/-- Running-maximum characterisation: if `f k` is a success with score `s`
dominating every score in the range, every earlier score in the range is
strictly below `s`, and the incoming best is strictly below `s`, then the
fold ends exactly on the candidate of chunk `k`. -/
theorem foldIdx_argmax (f : Nat → AskResult) (a : String) (s : ℚ) (st en : Int) :
    ∀ (m i k : Nat) (best : BestAnswer),
      i ≤ k → k < i + m →
      f k = AskResult.answer a s st en →
      (∀ j, i ≤ j → j < i + m → ∀ t, scoreAt (f j) = some t → t ≤ s) →
      (∀ j, i ≤ j → j < k → ∀ t, scoreAt (f j) = some t → t < s) →
      best.score < s →
      foldIdx f i m best
        = { answer := a, score := s, start := some st, stop := some en, chunk_index := some k } := by
  intro m
  induction m with
  | zero => intro i k best hik hkm _ _ _ _; omega
  | succ m ih =>
    intro i k best hik hkm hfk hbd hlt hbest
    by_cases hk : i = k
    · subst hk
      have hstep : stepBest best (f i) i
          = { answer := a, score := s, start := some st, stop := some en, chunk_index := some i } := by
        rw [hfk]
        simp [stepBest, hbest]
      show foldIdx f (i + 1) m (stepBest best (f i) i) = _
      rw [hstep]
      refine foldIdx_skip f m (i + 1) _ ?_
      intro j hj hjm t ht
      exact hbd j (by omega) (by omega) t ht
    · have hik' : i + 1 ≤ k := by omega
      have hbest' : (stepBest best (f i) i).score < s := by
        cases hr : f i with
        | error m' => simpa [stepBest, hr] using hbest
        | answer a' t st' en' =>
          have ht : t < s := hlt i le_rfl (by omega) t (by simp [scoreAt, hr])
          by_cases hcmp : best.score < t
          · simpa [stepBest, hr, hcmp] using ht
          · simpa [stepBest, hr, hcmp] using hbest
      show foldIdx f (i + 1) m (stepBest best (f i) i) = _
      refine ih (i + 1) k _ hik' (by omega) hfk ?_ ?_ hbest'
      · intro j hj hjm t ht
        exact hbd j (by omega) (by omega) t ht
      · intro j hj hjk t ht
        exact hlt j (by omega) hjk t ht

/-- The `chunk_index` key appears in the final accumulator exactly when the
range contains a success whose score strictly beats the incoming best score. -/
theorem foldIdx_chunk_index (f : Nat → AskResult) :
    ∀ (m i : Nat) (best : BestAnswer),
      (foldIdx f i m best).chunk_index.isSome
        ↔ (best.chunk_index.isSome ∨
            ∃ j, i ≤ j ∧ j < i + m ∧ ∃ t, scoreAt (f j) = some t ∧ best.score < t) := by
  intro m
  induction m with
  | zero =>
    intro i best
    simp only [foldIdx]
    constructor
    · intro h; exact Or.inl h
    · intro h
      rcases h with h | ⟨j, hj, hjm, _⟩
      · exact h
      · omega
  | succ m ih =>
    intro i best
    show (foldIdx f (i + 1) m (stepBest best (f i) i)).chunk_index.isSome ↔ _
    rw [ih (i + 1) (stepBest best (f i) i)]
    cases hr : f i with
    | error m' =>
      simp only [stepBest]
      constructor
      · intro h
        rcases h with h | ⟨j, hj, hjm, t, ht, hlt⟩
        · exact Or.inl h
        · exact Or.inr ⟨j, by omega, by omega, t, ht, hlt⟩
      · intro h
        rcases h with h | ⟨j, hj, hjm, t, ht, hlt⟩
        · exact Or.inl h
        · refine Or.inr ⟨j, ?_, by omega, t, ht, hlt⟩
          rcases Nat.eq_or_lt_of_le hj with hji | hji
          · exfalso
            subst hji
            simp [scoreAt, hr] at ht
          · omega
    | answer a t st en =>
      by_cases hcmp : best.score < t
      · simp only [stepBest, hr, if_pos hcmp]
        constructor
        · intro _
          exact Or.inr ⟨i, le_rfl, by omega, t, by simp [scoreAt, hr], hcmp⟩
        · intro _
          left
          simp
      · simp only [stepBest, hr, if_neg hcmp]
        constructor
        · intro h
          rcases h with h | ⟨j, hj, hjm, u, hu, hltu⟩
          · exact Or.inl h
          · exact Or.inr ⟨j, by omega, by omega, u, hu, hltu⟩
        · intro h
          rcases h with h | ⟨j, hj, hjm, u, hu, hltu⟩
          · exact Or.inl h
          · rcases Nat.eq_or_lt_of_le hj with hji | hji
            · exfalso
              subst hji
              have htu : t = u := by
                simpa [scoreAt, hr] using hu
              subst htu
              exact hcmp hltu
            · exact Or.inr ⟨j, by omega, by omega, u, hu, hltu⟩

theorem runChunking_eq (text : List Char) (f : Nat → AskResult) (h : text ≠ []) :
    runChunking text f
      = (QAOutcome.answer (foldIdx f 0 (numChunks text) sentinel), numChunks text) := by
  unfold runChunking
  rw [if_neg h]
  show (QAOutcome.answer (selectLoop f (chunk_text text 1000) 0 sentinel 0).1,
      (selectLoop f (chunk_text text 1000) 0 sentinel 0).2) = _
  rw [selectLoop_eq_foldIdx f (chunk_text text 1000) 0 sentinel 0]
  show (QAOutcome.answer (foldIdx f 0 (chunk_text text 1000).length sentinel),
      0 + (chunk_text text 1000).length) = _
  rw [Nat.zero_add]
  rfl

theorem replicate_no_space (c : Char) (n : Nat) (hc : pyIsSpace c = false) :
    ∀ d ∈ List.replicate n c, pyIsSpace d = false := by
  intro d hd
  rw [List.eq_of_mem_replicate hd]
  exact hc

theorem ne_nil_of_length_ne_zero (l : List Char) (h : l.length ≠ 0) : l ≠ [] := by
  intro hl
  subst hl
  exact h rfl

theorem replicate_ne_nil (c : Char) : List.replicate 1000 c ≠ [] := by
  refine ne_nil_of_length_ne_zero _ ?_
  rw [List.length_replicate]
  omega

theorem splitAux_nil_flush (p : Char → Bool) (acc : List Char) (h : acc ≠ []) :
    splitAux p [] acc = [acc.reverse] := by
  simp [splitAux, h]

/-- Splitting two separator-free words around a single separator yields the
two words. -/
theorem splitWords_two (w1 w2 : List Char)
    (h1 : ∀ c ∈ w1, pyIsSpace c = false) (h2 : ∀ c ∈ w2, pyIsSpace c = false)
    (hn1 : w1 ≠ []) (hn2 : w2 ≠ []) :
    splitWords (w1 ++ ' ' :: w2) = [w1, w2] := by
  show splitAux pyIsSpace (w1 ++ ' ' :: w2) [] = _
  rw [splitAux_append_no_sep pyIsSpace w1 _ [] h1]
  have hne : (w1.reverse ++ [] : List Char) ≠ [] := by
    rw [List.append_nil]
    intro h
    exact hn1 (by simpa using congrArg List.reverse h)
  rw [splitAux_sep pyIsSpace ' ' w2 _ rfl hne]
  have hb : splitAux pyIsSpace w2 [] = splitAux pyIsSpace (w2 ++ []) [] := by
    rw [List.append_nil]
  rw [hb, splitAux_append_no_sep pyIsSpace w2 [] [] h2]
  have hne2 : (w2.reverse ++ [] : List Char) ≠ [] := by
    rw [List.append_nil]
    intro h
    exact hn2 (by simpa using congrArg List.reverse h)
  rw [splitAux_nil_flush pyIsSpace _ hne2]
  simp

/-- Two words that each exceed the limit are chunked one per chunk. -/
theorem chunkLoop_two_big (L : Nat) (w1 w2 : List Char)
    (h1 : ¬ (0 + w1.length + 1 ≤ L)) (h2 : ¬ (w1.length + w2.length + 1 ≤ L)) :
    chunkLoop L [w1, w2] [] 0 = [w1, w2] := by
  simp [chunkLoop, h1, h2, joinWords_single]
  all_goals omega

theorem splitWords_bigText :
    splitWords bigText = [List.replicate 1000 'a', List.replicate 1000 'b'] :=
  splitWords_two _ _ (replicate_no_space 'a' 1000 rfl) (replicate_no_space 'b' 1000 rfl)
    (replicate_ne_nil 'a') (replicate_ne_nil 'b')

theorem chunk_text_bigText :
    chunk_text bigText 1000 = [List.replicate 1000 'a', List.replicate 1000 'b'] := by
  unfold chunk_text
  rw [show splitWords bigText = [List.replicate 1000 'a', List.replicate 1000 'b']
    from splitWords_bigText]
  refine chunkLoop_two_big 1000 _ _ ?_ ?_
  · rw [List.length_replicate]; omega
  · rw [List.length_replicate, List.length_replicate]; omega

theorem numChunks_bigText : numChunks bigText = 2 := by
  rw [numChunks, chunk_text_bigText]
  rfl

theorem bigText_ne_nil : bigText ≠ [] := by
  show List.replicate 1000 'a' ++ ' ' :: List.replicate 1000 'b' ≠ []
  intro h
  have hlen := congrArg List.length h
  rw [List.length_append, List.length_cons, List.length_replicate, List.length_replicate,
    List.length_nil] at hlen
  omega

/-! ### Claim theorems -/

/-- C1: for every input text and every max length L ≥ 1, concatenating the
word sequences of the chunks returned by `chunk_text` (splitting each chunk
on spaces) yields exactly the word sequence of the input text: every word
appears in exactly one chunk, in original order, with no word lost,
duplicated, or reordered. -/
theorem C1_chunks_preserve_words (text : List Char) (L : Nat) (hL : 1 ≤ L) :
    ((chunk_text text L).map splitSpaces).flatten = splitWords text := by
  unfold chunk_text
  rw [chunkLoop_words L (splitWords text) [] 0 (splitWords_words_good text) (by simp)]
  simp

theorem C1_witness :
    1 ≤ 5 ∧
      ((chunk_text ['a', 'b', ' ', 'c', 'd'] 5).map splitSpaces).flatten
        = splitWords ['a', 'b', ' ', 'c', 'd'] :=
  ⟨by decide, C1_chunks_preserve_words ['a', 'b', ' ', 'c', 'd'] 5 (by decide)⟩

/-- C2: for every input text and every max length L ≥ 1, every chunk returned
by `chunk_text` has length at most L, except when the chunk consists of
exactly one word whose own length exceeds L, in which case that word forms
its own oversized chunk. -/
theorem C2_chunk_length_bound (text : List Char) (L : Nat) (hL : 1 ≤ L) :
    ∀ c ∈ chunk_text text L,
      c.length ≤ L ∨ ((splitSpaces c).length = 1 ∧ L < c.length) := by
  unfold chunk_text
  exact chunkLoop_len L (splitWords text) [] 0 (splitWords_words_good text) (by simp)
    (Or.inl ⟨rfl, rfl⟩)

theorem C2_witness :
    1 ≤ 3 ∧
      ∀ c ∈ chunk_text ['a', 'b', ' ', 'c', 'd', ' ', 'e', 'f', 'g', 'h'] 3,
        c.length ≤ 3 ∨ ((splitSpaces c).length = 1 ∧ 3 < c.length) :=
  ⟨by decide, C2_chunk_length_bound ['a', 'b', ' ', 'c', 'd', ' ', 'e', 'f', 'g', 'h'] 3 (by decide)⟩

/-- C8: for every max length L ≥ 1, `chunk_text` applied to the empty string
returns the empty sequence of chunks. -/
theorem C8_empty_text (L : Nat) (hL : 1 ≤ L) : chunk_text [] L = [] := rfl

theorem C8_witness : 1 ≤ 1 ∧ chunk_text [] 1 = [] :=
  ⟨by decide, C8_empty_text 1 (by decide)⟩

/-- C10: for every input text and every max length L ≥ 1, the first chunk
returned by `chunk_text` has length at most L - 1 unless it is a single word
of length ≥ L (the running counter charges a separator for the first word),
while for some input a chunk after the first has length exactly L (a chunk
started in the overflow branch is charged no separator for its first word). -/
theorem C10_first_chunk_off_by_one :
    (∀ (text : List Char) (L : Nat), 1 ≤ L → ∀ c, (chunk_text text L).head? = some c →
        c.length ≤ L - 1 ∨ ((splitSpaces c).length = 1 ∧ L ≤ c.length)) ∧
    (∃ (text : List Char) (L i : Nat) (c : List Char), 1 ≤ L ∧ 0 < i ∧
        (chunk_text text L)[i]? = some c ∧ c.length = L) := by
  constructor
  · intro text L hL c hc
    unfold chunk_text at hc
    have hgood := splitWords_words_good text
    cases hws : splitWords text with
    | nil =>
      rw [hws] at hc
      simp [chunkLoop] at hc
    | cons w ws' =>
      rw [hws] at hgood
      rw [hws] at hc
      have hgw : GoodWord w := hgood w (by simp)
      by_cases hcond : w.length + 1 ≤ L
      · have hstep : chunkLoop L (w :: ws') [] 0
            = chunkLoop L ws' [w] (w.length + 1) := by
          simp [chunkLoop, hcond]
        rw [hstep] at hc
        left
        have hB := chunkLoop_headB L ws' [w] (w.length + 1) (by simp)
          (by rw [joinWords_single]) hcond c hc
        omega
      · have hstep : chunkLoop L (w :: ws') [] 0 = chunkLoop L ws' [w] w.length := by
          simp [chunkLoop, hcond]
        rw [hstep] at hc
        have hwL : L ≤ w.length := by omega
        rw [chunkLoop_headOver L ws' w hwL
          (fun u hu => (hgood u (List.mem_cons_of_mem w hu)).1)] at hc
        have hwc : w = c := by injection hc
        subst hwc
        right
        refine ⟨?_, hwL⟩
        rw [← joinWords_single w,
          splitSpaces_joinWords [w] (by intro u hu; simp at hu; subst hu; exact hgw) (by simp)]
        simp
  · refine ⟨['a', 'b', 'c', 'd', ' ', 'a', ' ', 'b'], 3, 1, ['a', ' ', 'b'],
      by decide, by decide, by decide, by decide⟩

theorem C10_witness :
    1 ≤ 3 ∧
      (chunk_text ['a', 'b', 'c', 'd', ' ', 'a', ' ', 'b'] 3).head? = some ['a', 'b', 'c', 'd'] ∧
      ((['a', 'b', 'c', 'd'] : List Char).length ≤ 3 - 1 ∨
        ((splitSpaces ['a', 'b', 'c', 'd']).length = 1 ∧
          3 ≤ (['a', 'b', 'c', 'd'] : List Char).length)) :=
  ⟨by decide, by decide,
    C10_first_chunk_off_by_one.1 ['a', 'b', 'c', 'd', ' ', 'a', ' ', 'b'] 3 (by decide)
      ['a', 'b', 'c', 'd'] (by decide)⟩

/-- C5: for every non-empty document and every assignment of per-chunk
results, a chunk whose scoring call returns an error never replaces the best
answer so far and never aborts the search (every chunk is still scored); if
every chunk returns an error, `ask_question_with_chunking` returns the
sentinel {"No answer found", score 0} with no `chunk_index` key, as a normal
answer, not an error. -/
theorem C5_errors_skipped :
    (∀ (best : BestAnswer) (m : String) (i : Nat),
      stepBest best (AskResult.error m) i = best) ∧
    (∀ (text : List Char) (f : Nat → AskResult), text ≠ [] →
      (runChunking text f).2 = numChunks text) ∧
    (∀ (text : List Char) (f : Nat → AskResult), text ≠ [] →
      (∀ j, j < numChunks text → ∃ m, f j = AskResult.error m) →
      (runChunking text f).1 = QAOutcome.answer sentinel ∧
        sentinel.chunk_index = none ∧ sentinel.answer = noAnswerStr ∧ sentinel.score = 0) := by
  refine ⟨fun best m i => rfl, ?_, ?_⟩
  · intro text f h
    rw [runChunking_eq text f h]
  · intro text f h herr
    rw [runChunking_eq text f h]
    refine ⟨?_, rfl, rfl, rfl⟩
    show QAOutcome.answer (foldIdx f 0 (numChunks text) sentinel) = QAOutcome.answer sentinel
    rw [foldIdx_skip f (numChunks text) 0 sentinel ?_]
    intro j hj0 hjn t ht
    obtain ⟨m, hm⟩ := herr j (by omega)
    rw [hm] at ht
    simp [scoreAt] at ht

theorem C5_witness :
    (['a'] : List Char) ≠ [] ∧
      ((runChunking ['a'] (fun _ => AskResult.error ("e"))).1 = QAOutcome.answer sentinel ∧
        sentinel.chunk_index = none ∧ sentinel.answer = noAnswerStr ∧ sentinel.score = 0) :=
  ⟨by decide, C5_errors_skipped.2.2 ['a'] (fun _ => AskResult.error ("e")) (by decide)
    (fun j hj => ⟨"e", rfl⟩)⟩

/-- C6 (amended): if the document text is empty, `ask_question_with_chunking`
returns the "No PDF text available" error signal and invokes the external
scoring collaborator zero times; if the text is non-empty but chunking
produces no chunks (whitespace-only text), no chunk is processed and the
sentinel best answer is returned, again with zero collaborator invocations. -/
theorem C6_no_text_amended :
    (∀ (f : Nat → AskResult), runChunking [] f = (QAOutcome.error noPdfMsg, 0)) ∧
    (∀ (text : List Char) (f : Nat → AskResult), text ≠ [] → chunk_text text 1000 = [] →
      runChunking text f = (QAOutcome.answer sentinel, 0)) := by
  constructor
  · intro f
    simp [runChunking]
  · intro text f h hchunks
    have hn : numChunks text = 0 := by
      rw [numChunks, hchunks]
      rfl
    rw [runChunking_eq text f h, hn]
    rfl

/-- C6 counterexample: for the whitespace-only document " " no chunk is
processed and the collaborator is never invoked, yet the result is the
sentinel best answer, not the "No PDF text available" error signal the claim
requires. -/
theorem C6_counterexample :
    runChunking [' '] (fun _ => AskResult.error ("e")) = (QAOutcome.answer sentinel, 0) ∧
      QAOutcome.answer sentinel ≠ QAOutcome.error noPdfMsg := by
  constructor
  · decide
  · decide

theorem C6_witness :
    (([' '] : List Char) ≠ []) ∧ chunk_text [' '] 1000 = [] ∧
      runChunking [' '] (fun _ => AskResult.error ("x")) = (QAOutcome.answer sentinel, 0) :=
  ⟨by decide, by decide,
    C6_no_text_amended.2 [' '] (fun _ => AskResult.error ("x")) (by decide) (by decide)⟩

/-- C7: for every entry-point request in which the model or the prompt form
field is missing, `/process` rejects the request with HTTP 400 and the
message "Model and prompt are required.", and the remote scoring
collaborator is invoked zero times. -/
theorem C7_missing_fields_rejected (hf_model hf_token prompt file : Option String)
    (hf : Payload → HfOutcome) (h : hf_model = none ∨ prompt = none) :
    process hf_model hf_token prompt file hf
      = { body := ProcessResult.badRequest statusErrorStr missingMsg,
          httpStatus := 400, hfCalls := 0 } := by
  have hfal : (pyFalsy hf_model || pyFalsy prompt) = true := by
    rcases h with h | h
    · subst h; simp [pyFalsy]
    · subst h; simp [pyFalsy]
  unfold process
  rw [if_pos hfal]

theorem C7_witness :
    ((none : Option String) = none ∨ (some ("What is AI?") : Option String) = none) ∧
      process none (some ("dummy")) (some ("What is AI?")) none (fun _ => HfOutcome.notFound)
        = { body := ProcessResult.badRequest statusErrorStr missingMsg,
            httpStatus := 400, hfCalls := 0 } :=
  ⟨Or.inl rfl, C7_missing_fields_rejected none (some ("dummy")) (some ("What is AI?")) none
    (fun _ => HfOutcome.notFound) (Or.inl rfl)⟩

/-- C9: for every non-empty document and every assignment of per-chunk
results, the returned best-answer dict has score ≥ 0 and carries the
`chunk_index` key exactly when some successful chunk scored strictly above
0; a result whose score is 0 or negative (and any error) never replaces the
sentinel, and if no chunk beats 0 the sentinel "No answer found" is returned
with no chunk index. -/
theorem C9_sentinel_invariants :
    (∀ (text : List Char) (f : Nat → AskResult), text ≠ [] →
      ∃ b, (runChunking text f).1 = QAOutcome.answer b ∧ 0 ≤ b.score ∧
        (b.chunk_index.isSome
          ↔ ∃ j, j < numChunks text ∧ ∃ t, scoreAt (f j) = some t ∧ 0 < t)) ∧
    (∀ (r : AskResult) (i : Nat), (∀ t, scoreAt r = some t → t ≤ 0) →
      stepBest sentinel r i = sentinel) ∧
    (∀ (text : List Char) (f : Nat → AskResult), text ≠ [] →
      (∀ j, j < numChunks text → ∀ t, scoreAt (f j) = some t → t ≤ 0) →
      (runChunking text f).1 = QAOutcome.answer sentinel) := by
  refine ⟨?_, ?_, ?_⟩
  · intro text f h
    rw [runChunking_eq text f h]
    refine ⟨foldIdx f 0 (numChunks text) sentinel, rfl, ?_, ?_⟩
    · exact foldIdx_score_mono f (numChunks text) 0 sentinel
    · rw [foldIdx_chunk_index f (numChunks text) 0 sentinel]
      constructor
      · intro h'
        rcases h' with h' | ⟨j, _, hjn, t, ht, hlt⟩
        · exact absurd h' (by simp [sentinel])
        · exact ⟨j, by omega, t, ht, hlt⟩
      · rintro ⟨j, hj, t, ht, hpos⟩
        exact Or.inr ⟨j, by omega, by omega, t, ht, hpos⟩
  · intro r i hr
    cases r with
    | error m => rfl
    | answer a s st en =>
      have hs : s ≤ 0 := hr s rfl
      have hns : ¬ (sentinel.score < s) := not_lt.mpr hs
      show (if sentinel.score < s then _ else sentinel) = sentinel
      rw [if_neg hns]
  · intro text f h hbd
    rw [runChunking_eq text f h]
    show QAOutcome.answer (foldIdx f 0 (numChunks text) sentinel) = QAOutcome.answer sentinel
    rw [foldIdx_skip f (numChunks text) 0 sentinel
      (fun j hj0 hjn t ht => hbd j (by omega) t ht)]

theorem C9_witness :
    (['a'] : List Char) ≠ [] ∧
      ∃ b, (runChunking ['a'] (fun _ => AskResult.error ("e"))).1 = QAOutcome.answer b ∧
        0 ≤ b.score ∧
        (b.chunk_index.isSome ↔ ∃ j, j < numChunks ['a'] ∧
          ∃ t, scoreAt ((fun _ => AskResult.error ("e")) j) = some t ∧ 0 < t) :=
  ⟨by decide, C9_sentinel_invariants.1 ['a'] (fun _ => AskResult.error ("e")) (by decide)⟩

/-- C3 counterexample: a one-chunk document whose only chunk scores 0
successfully. The claim requires the best answer to be that chunk's
candidate annotated with chunk index 0, but the code keeps the sentinel
(score 0 does not strictly beat the sentinel's 0), so the returned dict is
"No answer found" with no `chunk_index` key. -/
theorem C3_counterexample :
    numChunks ['a'] = 1 ∧
      (runChunking ['a'] (fun _ => AskResult.answer ("A") 0 0 0)).1
        = QAOutcome.answer sentinel ∧
      sentinel.answer ≠ ("A" : String) ∧ sentinel.chunk_index ≠ some 0 := by
  refine ⟨by decide, by decide, by decide, by decide⟩

/-- C3 (amended): for every non-empty document whose chunks all score
successfully and where at least one chunk scores strictly above 0,
`ask_question_with_chunking` returns the candidate of the first chunk
achieving the maximum confidence score, annotated with that chunk's index;
in particular a 3-chunk document scoring 0.2, 0.9, 0.5 yields the 0.9
candidate with chunk_index = 1. When no chunk scores above 0 the sentinel
is returned instead. -/
theorem C3_best_of_chunks_amended :
    (∀ (text : List Char) (f : Nat → AskResult) (a : Nat → String) (s : Nat → ℚ)
        (st en : Nat → Int),
      text ≠ [] →
      (∀ j, j < numChunks text → f j = AskResult.answer (a j) (s j) (st j) (en j)) →
      (∃ j, j < numChunks text ∧ 0 < s j) →
      ∃ i, i < numChunks text ∧ (∀ j, j < numChunks text → s j ≤ s i) ∧
        (∀ j, j < i → s j < s i) ∧
        (runChunking text f).1 = QAOutcome.answer
          { answer := a i, score := s i, start := some (st i), stop := some (en i),
            chunk_index := some i }) ∧
    (∀ (text : List Char) (f : Nat → AskResult) (a : Nat → String) (st en : Nat → Int),
      text ≠ [] → numChunks text = 3 →
      f 0 = AskResult.answer (a 0) (0.2 : ℚ) (st 0) (en 0) →
      f 1 = AskResult.answer (a 1) (0.9 : ℚ) (st 1) (en 1) →
      f 2 = AskResult.answer (a 2) (0.5 : ℚ) (st 2) (en 2) →
      (runChunking text f).1 = QAOutcome.answer
        { answer := a 1, score := (0.9 : ℚ), start := some (st 1), stop := some (en 1),
          chunk_index := some 1 }) := by
  constructor
  · intro text f a s st en h hsucc hpos
    obtain ⟨j₀, hj₀, hj₀pos⟩ := hpos
    have hne : ((Finset.range (numChunks text)).image s).Nonempty :=
      ⟨s j₀, Finset.mem_image_of_mem s (Finset.mem_range.mpr hj₀)⟩
    obtain ⟨i₀, hi₀, hsi₀⟩ := Finset.mem_image.mp (Finset.max'_mem _ hne)
    have hub : ∀ j, j < numChunks text →
        s j ≤ ((Finset.range (numChunks text)).image s).max' hne := fun j hj =>
      Finset.le_max' _ _ (Finset.mem_image_of_mem s (Finset.mem_range.mpr hj))
    have hMpos : 0 < ((Finset.range (numChunks text)).image s).max' hne :=
      lt_of_lt_of_le hj₀pos (hub j₀ hj₀)
    have hex : ∃ i, i < numChunks text ∧
        s i = ((Finset.range (numChunks text)).image s).max' hne :=
      ⟨i₀, Finset.mem_range.mp hi₀, hsi₀⟩
    have hk := Nat.find_spec hex
    refine ⟨Nat.find hex, hk.1, ?_, ?_, ?_⟩
    · intro j hj
      rw [hk.2]
      exact hub j hj
    · intro j hj
      rw [hk.2]
      have hne' : s j ≠ ((Finset.range (numChunks text)).image s).max' hne :=
        fun heq => Nat.find_min hex hj ⟨by omega, heq⟩
      exact lt_of_le_of_ne (hub j (by omega)) hne'
    · rw [runChunking_eq text f h]
      show QAOutcome.answer (foldIdx f 0 (numChunks text) sentinel) = _
      rw [foldIdx_argmax f (a (Nat.find hex)) (s (Nat.find hex)) (st (Nat.find hex))
        (en (Nat.find hex)) (numChunks text) 0 (Nat.find hex) sentinel (by omega) (by omega)
        (hsucc _ hk.1) ?_ ?_ ?_]
      · intro j hj0 hjn t ht
        rw [hsucc j (by omega)] at ht
        simp [scoreAt] at ht
        rw [← ht, hk.2]
        exact hub j (by omega)
      · intro j hj0 hjk t ht
        rw [hsucc j (by omega)] at ht
        simp [scoreAt] at ht
        rw [← ht, hk.2]
        have hne' : s j ≠ ((Finset.range (numChunks text)).image s).max' hne :=
          fun heq => Nat.find_min hex hjk ⟨by omega, heq⟩
        exact lt_of_le_of_ne (hub j (by omega)) hne'
      · have h0 : (0 : ℚ) < s (Nat.find hex) := by
          rw [hk.2]
          exact hMpos
        exact h0
  · intro text f a st en h h3 hf0 hf1 hf2
    rw [runChunking_eq text f h]
    show QAOutcome.answer (foldIdx f 0 (numChunks text) sentinel) = _
    rw [h3]
    rw [foldIdx_argmax f (a 1) (0.9 : ℚ) (st 1) (en 1) 3 0 1 sentinel (by omega) (by omega)
      hf1 ?_ ?_ ?_]
    · intro j hj0 hj3 t ht
      have hcase : j = 0 ∨ j = 1 ∨ j = 2 := by omega
      rcases hcase with hj | hj | hj
      · subst hj; rw [hf0] at ht; simp [scoreAt] at ht; rw [← ht]; norm_num
      · subst hj; rw [hf1] at ht; simp [scoreAt] at ht; rw [← ht]
      · subst hj; rw [hf2] at ht; simp [scoreAt] at ht; rw [← ht]; norm_num
    · intro j hj0 hj1 t ht
      have hj : j = 0 := by omega
      subst hj
      rw [hf0] at ht
      simp [scoreAt] at ht
      rw [← ht]
      norm_num
    · have h0 : (0 : ℚ) < (0.9 : ℚ) := by norm_num
      exact h0

theorem C3_witness :
    (['a'] : List Char) ≠ [] ∧
      ∃ i, i < numChunks ['a'] ∧
        (∀ j, j < numChunks ['a'] → (fun (_ : Nat) => (1 : ℚ)) j ≤ (fun (_ : Nat) => (1 : ℚ)) i) ∧
        (∀ j, j < i → (fun (_ : Nat) => (1 : ℚ)) j < (fun (_ : Nat) => (1 : ℚ)) i) ∧
        (runChunking ['a'] (fun _ => AskResult.answer ("A") 1 0 0)).1 = QAOutcome.answer
          { answer := "A", score := (1 : ℚ), start := some 0, stop := some 0,
            chunk_index := some i } :=
  ⟨by decide, C3_best_of_chunks_amended.1 ['a'] (fun _ => AskResult.answer ("A") 1 0 0)
    (fun _ => "A") (fun _ => (1 : ℚ)) (fun _ => 0) (fun _ => 0) (by decide)
    (fun j hj => rfl) ⟨0, by decide, by norm_num⟩⟩

/-- C4 counterexample: a two-chunk document whose chunks tie at the highest
score 0. The claim requires the candidate from the lower chunk index, but
neither tied candidate strictly beats the sentinel's score 0, so the code
returns the sentinel with no `chunk_index` key. -/
theorem C4_counterexample :
    numChunks bigText = 2 ∧
      (runChunking bigText (fun _ => AskResult.answer ("A") 0 0 0)).1
        = QAOutcome.answer sentinel ∧
      sentinel.chunk_index = none ∧ sentinel.answer ≠ ("A" : String) := by
  refine ⟨numChunks_bigText, ?_, rfl, by decide⟩
  rw [runChunking_eq bigText _ bigText_ne_nil]
  show QAOutcome.answer (foldIdx _ 0 (numChunks bigText) sentinel) = QAOutcome.answer sentinel
  rw [foldIdx_skip _ (numChunks bigText) 0 sentinel ?_]
  intro j hj0 hjn t ht
  simp [scoreAt] at ht
  rw [← ht]
  exact le_refl (0 : ℚ)

/-- C4 (amended): for every non-empty document in which two or more chunks
tie for the highest successful score and that score is strictly positive,
`ask_question_with_chunking` returns the candidate from the lowest chunk
index achieving it, because the best-so-far accumulator is replaced only on
strict improvement; in particular two chunks both scoring 0.7 yield the
candidate of chunk 0. When the tied top score is not strictly positive the
sentinel is returned instead. -/
theorem C4_tie_lowest_index_amended :
    (∀ (text : List Char) (f : Nat → AskResult) (sc : ℚ) (i₁ i₂ : Nat),
      text ≠ [] → i₁ < i₂ → i₂ < numChunks text → 0 < sc →
      scoreAt (f i₁) = some sc → scoreAt (f i₂) = some sc →
      (∀ j, j < numChunks text → ∀ t, scoreAt (f j) = some t → t ≤ sc) →
      ∃ i, i ≤ i₁ ∧ scoreAt (f i) = some sc ∧
        (∀ j, j < i → ∀ t, scoreAt (f j) = some t → t < sc) ∧
        ∃ a st en, f i = AskResult.answer a sc st en ∧
          (runChunking text f).1 = QAOutcome.answer
            { answer := a, score := sc, start := some st, stop := some en,
              chunk_index := some i }) ∧
    (∀ (text : List Char) (f : Nat → AskResult) (a₁ a₂ : String) (st₁ st₂ en₁ en₂ : Int),
      text ≠ [] → numChunks text = 2 →
      f 0 = AskResult.answer a₁ (0.7 : ℚ) st₁ en₁ →
      f 1 = AskResult.answer a₂ (0.7 : ℚ) st₂ en₂ →
      (runChunking text f).1 = QAOutcome.answer
        { answer := a₁, score := (0.7 : ℚ), start := some st₁, stop := some en₁,
          chunk_index := some 0 }) := by
  constructor
  · intro text f sc i₁ i₂ h hi12 hi2n hscpos h1 h2 hub
    have hex : ∃ i, i < numChunks text ∧ scoreAt (f i) = some sc := ⟨i₁, by omega, h1⟩
    have hk := Nat.find_spec hex
    have hklow : Nat.find hex ≤ i₁ := Nat.find_min' hex ⟨by omega, h1⟩
    have hstrict : ∀ j, j < Nat.find hex → ∀ t, scoreAt (f j) = some t → t < sc := by
      intro j hj t ht
      have hne' : t ≠ sc := by
        intro heq
        subst heq
        exact Nat.find_min hex hj ⟨by omega, ht⟩
      exact lt_of_le_of_ne (hub j (by omega) t ht) hne'
    cases hfk : f (Nat.find hex) with
    | error m =>
      exfalso
      have := hk.2
      rw [hfk] at this
      simp [scoreAt] at this
    | answer a' s' st' en' =>
      have hs' : s' = sc := by
        have := hk.2
        rw [hfk] at this
        simpa [scoreAt] using this
      subst hs'
      refine ⟨Nat.find hex, hklow, hk.2, hstrict, a', st', en', hfk, ?_⟩
      rw [runChunking_eq text f h]
      show QAOutcome.answer (foldIdx f 0 (numChunks text) sentinel) = _
      rw [foldIdx_argmax f a' s' st' en' (numChunks text) 0 (Nat.find hex) sentinel
        (by omega) (by omega) hfk (fun j hj0 hjn t ht => hub j (by omega) t ht)
        (fun j hj0 hjk t ht => hstrict j hjk t ht) ?_]
      exact hscpos
  · intro text f a₁ a₂ st₁ st₂ en₁ en₂ h h2 hf0 hf1
    rw [runChunking_eq text f h]
    show QAOutcome.answer (foldIdx f 0 (numChunks text) sentinel) = _
    rw [h2]
    rw [foldIdx_argmax f a₁ (0.7 : ℚ) st₁ en₁ 2 0 0 sentinel (by omega) (by omega) hf0
      ?_ ?_ ?_]
    · intro j hj0 hj2 t ht
      have hcase : j = 0 ∨ j = 1 := by omega
      rcases hcase with hj | hj
      · subst hj; rw [hf0] at ht; simp [scoreAt] at ht; rw [← ht]
      · subst hj; rw [hf1] at ht; simp [scoreAt] at ht; rw [← ht]
    · intro j hj0 hj t ht
      omega
    · have h0 : (0 : ℚ) < (0.7 : ℚ) := by norm_num
      exact h0

theorem C4_witness :
    bigText ≠ [] ∧ numChunks bigText = 2 ∧
      (runChunking bigText
          (fun i => if i = 0 then AskResult.answer ("A") (0.7 : ℚ) 1 2
            else AskResult.answer ("B") (0.7 : ℚ) 3 4)).1
        = QAOutcome.answer
          { answer := "A", score := (0.7 : ℚ), start := some 1, stop := some 2,
            chunk_index := some 0 } :=
  ⟨bigText_ne_nil, numChunks_bigText,
    C4_tie_lowest_index_amended.2 bigText
      (fun i => if i = 0 then AskResult.answer ("A") (0.7 : ℚ) 1 2
        else AskResult.answer ("B") (0.7 : ℚ) 3 4)
      "A" "B" 1 3 2 4 bigText_ne_nil numChunks_bigText rfl rfl⟩
